import Mathlib

/-
  Verification development for the planner repository (Gantt-chart editor).

  The embedding works at UTC-day granularity: a calendar date stored as a
  UTC-midnight instant is represented by its epoch-day number (an integer),
  so that adding N days is integer addition and date comparison is integer
  comparison.  Pixel coordinates are represented by rationals, so that the
  JavaScript expression Math.round(deltaX / dayWidth) becomes exact
  arithmetic over the rationals.
-/

namespace Planner

/-- Task entity as in src/types/task.ts and the prisma schema: dates are
UTC-midnight instants, represented here by epoch-day numbers. -/
structure Task where
  id : Int
  name : String
  description : Option String
  startDate : Int
  endDate : Int
  completed : Bool
  order : Int
  projectId : Int
deriving Repr, DecidableEq

/-- Project entity as in src/types/task.ts and the prisma schema. -/
structure Project where
  id : Int
  name : String
  description : Option String
  color : String
  order : Int
  tasks : List Task
deriving Repr, DecidableEq

/-! ## Calendar-day arithmetic

`daysFromCivil` converts a Gregorian civil date (1-based month, 1..12) to an
epoch-day count (1970-01-01 is day 0), the standard era-based algorithm that
agrees with the JavaScript Date.UTC day arithmetic.  The day argument may
lie outside 1..31; the function is linear in it, matching how Date.UTC
normalizes out-of-range day components. -/
def daysFromCivil (y m d : Int) : Int :=
  let yAdj := if m ≤ 2 then y - 1 else y
  let era := Int.fdiv yAdj 400
  let yoe := yAdj - era * 400
  let mp := Int.emod (m + 9) 12
  let doy := Int.fdiv (153 * mp + 2) 5 + d - 1
  let doe := yoe * 365 + Int.fdiv yoe 4 - Int.fdiv yoe 100 + doy
  era * 146097 + doe - 719468

/-- Model of the JavaScript call Date.UTC(y, m, d) at day granularity:
the month argument is 0-based and may overflow; Date.UTC carries the
overflow into the year, which is the floor-division normalization below. -/
def dateUTC (y m d : Int) : Int :=
  daysFromCivil (y + Int.fdiv m 12) (Int.emod m 12 + 1) d

/-- Contiguous inclusive day range, structural in a fuel that counts the
days, so that concrete instances evaluate by rfl. -/
def rangeDaysAux : Nat → Int → List Int
  | 0, _ => []
  | n + 1, a => a :: rangeDaysAux n (a + 1)

/-- The list of days from a through b inclusive, empty when b < a.  This is
the loop "while (current <= latestDate) push; current = addDays(current, 1)"
of calculateTimeRange in src/components/gantt/gantt-chart.tsx. -/
def rangeDays (a b : Int) : List Int :=
  rangeDaysAux (b + 1 - a).toNat a

/-! ## Pixel-to-day conversion (src/components/gantt/task-bar.tsx, handleMouseMove) -/

/-- JavaScript Math.round over exact rational input: floor of x + 1/2
(round half toward positive infinity). -/
def jsRound (x : ℚ) : Int := ⌊x + 1 / 2⌋

/-- The conversion performed in handleMouseMove of task-bar.tsx:
daysOffset = Math.round(deltaX / dayWidth). -/
def pixelsToDays (deltaPixels dayColumnWidth : ℚ) : Int :=
  jsRound (deltaPixels / dayColumnWidth)

/-! ## Drag and resize commit (src/components/gantt/gantt-chart.tsx) -/

/-- The two resize edges, named start and end in the source. -/
inductive ResizeEdge
  | start
  | endEdge
deriving Repr, DecidableEq

/-- Commit step of handleTaskDragEnd (gantt-chart.tsx lines 532-568): when
the accumulated preview offset is nonzero, both dates move by the offset;
a zero offset issues no date update (result none). -/
def handleTaskDragEnd (task : Task) (dragPreviewOffset : Int) : Option (Int × Int) :=
  if dragPreviewOffset = 0 then none
  else some (task.startDate + dragPreviewOffset, task.endDate + dragPreviewOffset)

/-- Commit step of handleTaskResizeEnd (gantt-chart.tsx lines 581-627): the
moved edge shifts by the offset and is clamped so the bar keeps at least one
day: a new start at or after the end date becomes end minus 1, a new end at
or before the start date becomes start plus 1.  A zero offset commits
nothing. -/
def handleTaskResizeEnd (task : Task) (edge : ResizeEdge) (resizePreviewOffset : Int) :
    Option (Int × Int) :=
  if resizePreviewOffset = 0 then none
  else
    match edge with
    | .start =>
      let newStart := task.startDate + resizePreviewOffset
      let newStart := if task.endDate ≤ newStart then task.endDate - 1 else newStart
      some (newStart, task.endDate)
    | .endEdge =>
      let newEnd := task.endDate + resizePreviewOffset
      let newEnd := if newEnd ≤ task.startDate then task.startDate + 1 else newEnd
      some (task.startDate, newEnd)

/-! ## Timeline range (gantt-chart.tsx, calculateTimeRange, lines 470-516) -/

/-- calculateTimeRange of gantt-chart.tsx: an empty task list yields the
current UTC month (Date.UTC(y, m, 1) through Date.UTC(y, m+1, 0)); otherwise
the scan keeps the earliest start and latest end, initialised from the first
task, and the range runs from earliest minus 3 through latest plus 3. -/
def calculateTimeRange (todayY todayM : Int) (taskList : List Task) : List Int :=
  match taskList with
  | [] => rangeDays (dateUTC todayY todayM 1) (dateUTC todayY (todayM + 1) 0)
  | t0 :: _ =>
    let earliest := taskList.foldl
      (fun e t => if t.startDate < e then t.startDate else e) t0.startDate
    let latest := taskList.foldl
      (fun l t => if l < t.endDate then t.endDate else l) t0.endDate
    rangeDays (earliest - 3) (latest + 3)

/-! ## Client state store (src/lib/store.ts) -/

/-- The slice of the zustand store state the verified operations touch. -/
structure StoreState where
  projects : List Project
  isLoading : Bool
  error : Option String
  selectedProjectId : Option Int
  selectedTask : Option Task
deriving Repr, DecidableEq

/-- Outcome of an awaited fetch: 2xx response, non-2xx response, or a
thrown exception. -/
inductive FetchOutcome
  | ok
  | notOk
  | threw
deriving Repr, DecidableEq

/-- getTaskById of store.ts: scan the projects in cache order and return
the first task whose id matches. -/
def getTaskById : List Project → Int → Option Task
  | [], _ => none
  | p :: rest, id =>
    match p.tasks.find? (fun t => t.id == id) with
    | some t => some t
    | none => getTaskById rest id

/-- Inner step of setTask in store.ts: replace the task at the index found
by findIndex, or push the task at the end when no index matches. -/
def replaceOrAppend : List Task → Task → List Task
  | [], task => [task]
  | t :: rest, task =>
    if t.id = task.id then task :: rest else t :: replaceOrAppend rest task

/-- setTask of store.ts: the first project whose id equals the projectId of the task gets the task replaced or appended; when findIndex misses, the
state is unchanged. -/
def setTaskProjects : List Project → Task → List Project
  | [], _ => []
  | p :: rest, task =>
    if p.id = task.projectId then
      { p with tasks := replaceOrAppend p.tasks task } :: rest
    else
      p :: setTaskProjects rest task

/-- Partial task payload: the argument type of updateTask in store.ts and
the request body of PUT /api/tasks/[id].  A field set to none is absent
(undefined) in the JavaScript object.  The description field carries an
inner Option because the column is nullable.  Date fields hold an
epoch-day number; the route updates a date only when the raw value is
truthy, and every well-formed ISO date string is a truthy value, so
presence here corresponds to a truthy date in the source. -/
structure TaskPatch where
  id : Int
  name : Option String
  description : Option (Option String)
  startDate : Option Int
  endDate : Option Int
  completed : Option Bool
  order : Option Int
  projectId : Option Int
deriving Repr, DecidableEq

/-- The spread expression of updateTask in store.ts merging the patch over
the full cached task: present fields override, absent fields keep the
cached value. -/
def mergePatch (full : Task) (p : TaskPatch) : Task :=
  { id := p.id
    name := p.name.getD full.name
    description := p.description.getD full.description
    startDate := p.startDate.getD full.startDate
    endDate := p.endDate.getD full.endDate
    completed := p.completed.getD full.completed
    order := p.order.getD full.order
    projectId := p.projectId.getD full.projectId }

/-- updateTask of store.ts (lines 329-353) up to the point the PUT request
is issued; this prefix is shared by the silent and the normal mode, which
only diverge in how the response is awaited afterwards.  Returns the new
store state, whether a PUT request was issued, and the optimistic result
(none on the two guard paths: falsy id, task not in cache). -/
def updateTaskOptimistic (st : StoreState) (p : TaskPatch) (silent : Bool) :
    StoreState × Bool × Option Task :=
  if p.id = 0 then (st, false, none)
  else
    match getTaskById st.projects p.id with
    | none => (st, false, none)
    | some full =>
      let merged := mergePatch full p
      let _ := silent
      ({ st with projects := setTaskProjects st.projects merged }, true, some merged)

/-- deleteProject of store.ts (lines 167-195): the project is filtered out
of the cache before the request; a 2xx response keeps the removal and
clears selectedProjectId when it pointed at the deleted project; a non-2xx
response restores the snapshot and sets the error; a thrown fetch only
sets the error. -/
def deleteProject (st : StoreState) (projectId : Int) (resp : FetchOutcome) :
    StoreState × Bool :=
  let currentProjects := st.projects
  let st1 := { st with projects := currentProjects.filter (fun p => p.id != projectId) }
  match resp with
  | .ok =>
    if st1.selectedProjectId = some projectId then
      ({ st1 with selectedProjectId := none }, true)
    else
      (st1, true)
  | .notOk =>
    ({ st1 with projects := currentProjects, error := some "Failed to delete project" }, false)
  | .threw =>
    ({ st1 with error := some "Error deleting project" }, false)

/-! ## Task sorting and the flattened all-tasks view -/

/-- The task sort relation used by getTasksByProjectId and getAllTasks in
store.ts: the comparator returns a.order - b.order whenever both orders
are defined, which in the persisted data model (order is a non-null
column) they always are; the id fallback branch is unreachable there. -/
def taskLE (a b : Task) : Prop := a.order ≤ b.order

instance : DecidableRel taskLE := fun a b => by
  unfold taskLE
  infer_instance

instance : IsTotal Task taskLE := ⟨fun a b => Int.le_total a.order b.order⟩

instance : IsTrans Task taskLE := ⟨fun _ _ _ hab hbc => le_trans hab hbc⟩

/-- Stable sort by the order field, the effect of Array.prototype.sort
with the comparator of getTasksByProjectId and getAllTasks. -/
def sortTasks (l : List Task) : List Task :=
  l.insertionSort taskLE

/-- A task as produced by the flattened all-projects listing: the task
spread together with the display name and color of the owning project. -/
structure TaskView where
  task : Task
  projectName : String
  projectColor : String
deriving Repr, DecidableEq

/-- getAllTasks of store.ts (lines 73-97): reduce over the cached projects,
pushing, for each project with a nonempty task list, its tasks sorted by
the order comparator and decorated with the project name and color. -/
def getAllTasks (projects : List Project) : List TaskView :=
  projects.foldl
    (fun allTasks p =>
      if 0 < p.tasks.length then
        allTasks ++ (sortTasks p.tasks).map (fun t => TaskView.mk t p.name p.color)
      else
        allTasks)
    []

/-- The sort criterion applied by fetchAllTasks in
src/components/sidebar/project-list.tsx (lines 93-101), which claim C6
attributes to getAllTasks: incomplete before completed, then start date
ascending. -/
def viewLE (a b : TaskView) : Prop :=
  (a.task.completed = false ∧ b.task.completed = true) ∨
  (a.task.completed = b.task.completed ∧ a.task.startDate ≤ b.task.startDate)

instance : DecidableRel viewLE := fun a b => by
  unfold viewLE
  infer_instance

/-! ## Task reorder commit (store.ts reorderTasks, api/tasks PATCH) -/

/-- Payload built by reorderTasks in store.ts (lines 448-453):
taskIds.map((id, index) => ({ id, order: index * 10 })). -/
def tasksWithNewOrder (taskIds : List Int) : List (Int × Int) :=
  taskIds.enum.map (fun p => (p.2, (p.1 : Int) * 10))

/-- One prisma update issued by the PATCH handler in
src/app/api/tasks/route.ts: set the order of the row with the given id. -/
def patchOne (db : List Task) (u : Int × Int) : List Task :=
  db.map (fun t => if t.id = u.1 then { t with order := u.2 } else t)

/-- PATCH /api/tasks (route.ts lines 52-71): apply every {id, order} entry
of the batched body to the stored tasks. -/
def patchTasksRoute (db : List Task) (ups : List (Int × Int)) : List Task :=
  ups.foldl patchOne db

/-- Proof device: the reorder payload with indices shifted by a base,
structurally recursive so the foldl over it can be analysed one update at
a time. -/
def upsFrom (n : Nat) : List Int → List (Int × Int)
  | [] => []
  | i :: rest => (i, (n : Int) * 10) :: upsFrom (n + 1) rest

/-- Proof device: the effect of the whole update list on a single row. -/
def applyUps (ups : List (Int × Int)) (t : Task) : Task :=
  ups.foldl (fun t u => if t.id = u.1 then { t with order := u.2 } else t) t

/-! ## PUT /api/tasks/[id] (src/unnamed/part_002, lines 28-55) -/

/-- The prisma update data object of the PUT handler: a present field is
written, an absent (undefined) field leaves the column unchanged. -/
def applyPut (t : Task) (b : TaskPatch) : Task :=
  { t with
    name := b.name.getD t.name
    description := b.description.getD t.description
    startDate := b.startDate.getD t.startDate
    endDate := b.endDate.getD t.endDate
    completed := b.completed.getD t.completed
    projectId := b.projectId.getD t.projectId
    order := b.order.getD t.order }

/-- PUT /api/tasks/[id]: update the row whose id matches the path
parameter. -/
def putTaskRoute (db : List Task) (id : Int) (b : TaskPatch) : List Task :=
  db.map (fun t => if t.id = id then applyPut t b else t)

/-! ## Theorems -/

/-- Claim C1: for every task with startDate strictly before endDate and
every resize commit with a nonzero day-offset, a start-edge offset that
would land at or after endDate commits endDate minus 1 with endDate
unchanged, an end-edge offset that would land at or before startDate
commits startDate plus 1 with startDate unchanged, and every committed
resize satisfies startDate < endDate. -/
theorem resizeEnd_clamped (task : Task) (d : Int)
    (_hlt : task.startDate < task.endDate) (hd : d ≠ 0) :
    (task.endDate ≤ task.startDate + d →
      handleTaskResizeEnd task .start d = some (task.endDate - 1, task.endDate)) ∧
    (task.endDate + d ≤ task.startDate →
      handleTaskResizeEnd task .endEdge d = some (task.startDate, task.startDate + 1)) ∧
    (∀ edge s' e', handleTaskResizeEnd task edge d = some (s', e') → s' < e') := by
  refine ⟨?_, ?_, ?_⟩
  · intro h
    simp only [handleTaskResizeEnd, if_neg hd, if_pos h]
  · intro h
    simp only [handleTaskResizeEnd, if_neg hd, if_pos h]
  · intro edge s' e' h
    cases edge <;> simp only [handleTaskResizeEnd, if_neg hd] at h <;>
      split_ifs at h <;> (rw [Option.some.injEq, Prod.mk.injEq] at h) <;> omega

/-- Witness for resizeEnd_clamped at a concrete task spanning days 0..5:
a start offset of 10 clamps the start to 4, an end offset of -10 clamps
the end to 1. -/
theorem resizeEnd_clamped_witness :
    handleTaskResizeEnd ⟨1, "t", none, 0, 5, false, 0, 1⟩ .start 10 = some (4, 5) ∧
    handleTaskResizeEnd ⟨1, "t", none, 0, 5, false, 0, 1⟩ .endEdge (-10) = some (0, 1) :=
  ⟨(resizeEnd_clamped ⟨1, "t", none, 0, 5, false, 0, 1⟩ 10 (by decide) (by decide)).1
      (by decide),
   (resizeEnd_clamped ⟨1, "t", none, 0, 5, false, 0, 1⟩ (-10) (by decide) (by decide)).2.1
      (by decide)⟩

/-- Claim C2: a drag commit with nonzero offset d moves both dates by
exactly d days, so the duration is unchanged and startDate ≤ endDate is
preserved; a zero offset issues no update. -/
theorem dragEnd_shifts_both (task : Task) (d : Int) (hd : d ≠ 0) :
    handleTaskDragEnd task d = some (task.startDate + d, task.endDate + d) ∧
    (task.endDate + d) - (task.startDate + d) = task.endDate - task.startDate ∧
    (task.startDate ≤ task.endDate → task.startDate + d ≤ task.endDate + d) ∧
    handleTaskDragEnd task 0 = none := by
  refine ⟨?_, by ring, fun h => by omega, ?_⟩
  · simp only [handleTaskDragEnd, if_neg hd]
  · simp [handleTaskDragEnd]

/-- Witness for dragEnd_shifts_both: the spec scenario, dragging a task
spanning 2024-01-10 .. 2024-01-12 by +3 days gives 2024-01-13 ..
2024-01-15. -/
theorem dragEnd_shifts_both_witness :
    handleTaskDragEnd
        ⟨1, "Design", none, daysFromCivil 2024 1 10, daysFromCivil 2024 1 12, false, 0, 1⟩ 3 =
      some (daysFromCivil 2024 1 13, daysFromCivil 2024 1 15) := by
  have h := (dragEnd_shifts_both
    ⟨1, "Design", none, daysFromCivil 2024 1 10, daysFromCivil 2024 1 12, false, 0, 1⟩ 3
    (by decide)).1
  rw [h]
  decide

/-- Claim C3: the pixel-to-day conversion is rounding of the exact
quotient (the Mathlib round function rounds half up exactly as the
Math.round of the source), and in particular assigns 0, 1, -1 at the
0.49, 0.51 and -0.51 day-width boundaries. -/
theorem pixelsToDays_round (delta w : ℚ) (hw : 0 < w) :
    pixelsToDays delta w = round (delta / w) ∧
    pixelsToDays (0.49 * w) w = 0 ∧
    pixelsToDays (0.51 * w) w = 1 ∧
    pixelsToDays (-0.51 * w) w = -1 := by
  have hww : w / w = 1 := div_self hw.ne'
  refine ⟨by rw [pixelsToDays, jsRound, round_eq], ?_, ?_, ?_⟩ <;>
    · rw [pixelsToDays, jsRound, mul_div_assoc, hww, mul_one]
      norm_num

/-- Witness for pixelsToDays_round at the default day width of 60
pixels. -/
theorem pixelsToDays_round_witness :
    pixelsToDays (0.49 * 60) 60 = 0 ∧
    pixelsToDays (0.51 * 60) 60 = 1 ∧
    pixelsToDays (-0.51 * 60) 60 = -1 :=
  ⟨(pixelsToDays_round (0.49 * 60) 60 (by norm_num)).2.1,
   (pixelsToDays_round (0.51 * 60) 60 (by norm_num)).2.2.1,
   (pixelsToDays_round (-0.51 * 60) 60 (by norm_num)).2.2.2⟩

/-- Claim C9: the conversion rounds half up, not half away from zero: an
exact half-day rightward delta commits one day while an exact half-day
leftward delta commits zero, so the snap boundary is asymmetric. -/
theorem pixelsToDays_half_up (w : ℚ) (hw : 0 < w) :
    pixelsToDays (0.5 * w) w = 1 ∧
    pixelsToDays (-0.5 * w) w = 0 ∧
    pixelsToDays (-0.5 * w) w ≠ -pixelsToDays (0.5 * w) w := by
  have hww : w / w = 1 := div_self hw.ne'
  have h1 : pixelsToDays (0.5 * w) w = 1 := by
    rw [pixelsToDays, jsRound, mul_div_assoc, hww, mul_one]
    norm_num
  have h2 : pixelsToDays (-0.5 * w) w = 0 := by
    rw [pixelsToDays, jsRound, mul_div_assoc, hww, mul_one]
    norm_num
  exact ⟨h1, h2, by rw [h1, h2]; decide⟩

/-- Witness for pixelsToDays_half_up at day width 60. -/
theorem pixelsToDays_half_up_witness :
    pixelsToDays (0.5 * 60) 60 = 1 ∧ pixelsToDays (-0.5 * 60) 60 = 0 :=
  ⟨(pixelsToDays_half_up 60 (by norm_num)).1,
   (pixelsToDays_half_up 60 (by norm_num)).2.1⟩

/-- Claim C10: updateTask with a falsy id or an id not present in any
cached project returns null without mutating the cache and without
issuing a network request, in both silent and normal modes. -/
theorem updateTask_guard (st : StoreState) (p : TaskPatch) (silent : Bool)
    (h : p.id = 0 ∨ getTaskById st.projects p.id = none) :
    updateTaskOptimistic st p silent = (st, false, none) := by
  rcases h with h | h
  · simp only [updateTaskOptimistic, if_pos h]
  · by_cases hid : p.id = 0
    · simp only [updateTaskOptimistic, if_pos hid]
    · simp only [updateTaskOptimistic, if_neg hid, h]

/-- Witness for updateTask_guard: an empty cache, a patch for task id 5,
silent mode. -/
theorem updateTask_guard_witness :
    updateTaskOptimistic ⟨[], false, none, none, none⟩
        ⟨5, none, none, none, none, none, none, none⟩ true =
      (⟨[], false, none, none, none⟩, false, none) :=
  updateTask_guard ⟨[], false, none, none, none⟩
    ⟨5, none, none, none, none, none, none, none⟩ true (Or.inr rfl)

/-! ### Timeline-range lemmas -/

/-- The fueled range builder lists consecutive days starting at a. -/
theorem rangeDaysAux_eq_map (n : Nat) : ∀ a : Int,
    rangeDaysAux n a = (List.range n).map (fun i : Nat => a + (i : Int)) := by
  induction n with
  | zero => intro a; rfl
  | succ n ih =>
    intro a
    rw [show rangeDaysAux (n + 1) a = a :: rangeDaysAux n (a + 1) from rfl, ih (a + 1),
      List.range_succ_eq_map, List.map_cons, List.map_map]
    congr 1
    · simp
    · congr 1
      funext i
      simp only [Function.comp_apply]
      push_cast
      ring

/-- rangeDays a b is the contiguous list of days a, a+1, ..., b. -/
theorem rangeDays_eq_map (a b : Int) :
    rangeDays a b = (List.range (b + 1 - a).toNat).map (fun i : Nat => a + (i : Int)) :=
  rangeDaysAux_eq_map _ a

/-- Membership in rangeDays is the inclusive interval. -/
theorem mem_rangeDays (a b x : Int) : x ∈ rangeDays a b ↔ a ≤ x ∧ x ≤ b := by
  rw [rangeDays_eq_map]
  simp only [List.mem_map, List.mem_range]
  constructor
  · rintro ⟨i, hi, rfl⟩
    omega
  · rintro ⟨h1, h2⟩
    exact ⟨(x - a).toNat, by omega, by omega⟩

/-- The earliest-date scan of calculateTimeRange is a lower bound. -/
theorem foldl_min_le (ts : List Task) : ∀ init : Int,
    ts.foldl (fun e t => if t.startDate < e then t.startDate else e) init ≤ init ∧
    ∀ t ∈ ts, ts.foldl (fun e t => if t.startDate < e then t.startDate else e) init
      ≤ t.startDate := by
  induction ts with
  | nil => intro init; simp
  | cons t0 rest ih =>
    intro init
    rw [List.foldl_cons]
    by_cases hc : t0.startDate < init
    · rw [if_pos hc]
      obtain ⟨h1, h2⟩ := ih t0.startDate
      refine ⟨by omega, fun t ht => ?_⟩
      rcases List.mem_cons.mp ht with rfl | ht
      · exact h1
      · exact h2 t ht
    · rw [if_neg hc]
      obtain ⟨h1, h2⟩ := ih init
      refine ⟨h1, fun t ht => ?_⟩
      rcases List.mem_cons.mp ht with rfl | ht
      · omega
      · exact h2 t ht

/-- The earliest-date scan returns its initial value or a start date from
the list. -/
theorem foldl_min_mem (ts : List Task) : ∀ init : Int,
    ts.foldl (fun e t => if t.startDate < e then t.startDate else e) init = init ∨
    ts.foldl (fun e t => if t.startDate < e then t.startDate else e) init
      ∈ ts.map Task.startDate := by
  induction ts with
  | nil => intro init; simp
  | cons t0 rest ih =>
    intro init
    rw [List.foldl_cons]
    by_cases hc : t0.startDate < init
    · rw [if_pos hc]
      rcases ih t0.startDate with h | h
      · rw [h]; exact Or.inr (by simp)
      · exact Or.inr (List.mem_cons_of_mem _ h)
    · rw [if_neg hc]
      rcases ih init with h | h
      · exact Or.inl h
      · exact Or.inr (List.mem_cons_of_mem _ h)

/-- The latest-date scan of calculateTimeRange is an upper bound. -/
theorem foldl_max_le (ts : List Task) : ∀ init : Int,
    init ≤ ts.foldl (fun l t => if l < t.endDate then t.endDate else l) init ∧
    ∀ t ∈ ts, t.endDate ≤ ts.foldl (fun l t => if l < t.endDate then t.endDate else l) init := by
  induction ts with
  | nil => intro init; simp
  | cons t0 rest ih =>
    intro init
    rw [List.foldl_cons]
    by_cases hc : init < t0.endDate
    · rw [if_pos hc]
      obtain ⟨h1, h2⟩ := ih t0.endDate
      refine ⟨by omega, fun t ht => ?_⟩
      rcases List.mem_cons.mp ht with rfl | ht
      · exact h1
      · exact h2 t ht
    · rw [if_neg hc]
      obtain ⟨h1, h2⟩ := ih init
      refine ⟨h1, fun t ht => ?_⟩
      rcases List.mem_cons.mp ht with rfl | ht
      · omega
      · exact h2 t ht

/-- The latest-date scan returns its initial value or an end date from the
list. -/
theorem foldl_max_mem (ts : List Task) : ∀ init : Int,
    ts.foldl (fun l t => if l < t.endDate then t.endDate else l) init = init ∨
    ts.foldl (fun l t => if l < t.endDate then t.endDate else l) init
      ∈ ts.map Task.endDate := by
  induction ts with
  | nil => intro init; simp
  | cons t0 rest ih =>
    intro init
    rw [List.foldl_cons]
    by_cases hc : init < t0.endDate
    · rw [if_pos hc]
      rcases ih t0.endDate with h | h
      · rw [h]; exact Or.inr (by simp)
      · exact Or.inr (List.mem_cons_of_mem _ h)
    · rw [if_neg hc]
      rcases ih init with h | h
      · exact Or.inl h
      · exact Or.inr (List.mem_cons_of_mem _ h)

/-- Claim C4: for a nonempty task collection the computed timeline range
is the contiguous inclusive day sequence from the minimum start date minus
3 through the maximum end date plus 3; for an empty collection it is the
current UTC month, first day through last day inclusive (the last day of
the month is the day before the first day of the next month). -/
theorem timeRange_padded (y m : Int) (ts : List Task) :
    (ts = [] →
      calculateTimeRange y m ts = rangeDays (dateUTC y m 1) (dateUTC y (m + 1) 0) ∧
      dateUTC y (m + 1) 0 + 1 = dateUTC y (m + 1) 1 ∧
      ∀ x, x ∈ calculateTimeRange y m ts ↔
        dateUTC y m 1 ≤ x ∧ x ≤ dateUTC y (m + 1) 0) ∧
    (ts ≠ [] → ∃ lo hi,
      lo ∈ ts.map Task.startDate ∧ (∀ t ∈ ts, lo ≤ t.startDate) ∧
      hi ∈ ts.map Task.endDate ∧ (∀ t ∈ ts, t.endDate ≤ hi) ∧
      calculateTimeRange y m ts = rangeDays (lo - 3) (hi + 3) ∧
      calculateTimeRange y m ts =
        (List.range (hi + 3 + 1 - (lo - 3)).toNat).map (fun i : Nat => lo - 3 + (i : Int)) ∧
      ∀ x, x ∈ calculateTimeRange y m ts ↔ lo - 3 ≤ x ∧ x ≤ hi + 3) := by
  constructor
  · rintro rfl
    refine ⟨rfl, ?_, fun x => mem_rangeDays _ _ x⟩
    simp only [dateUTC, daysFromCivil]
    ring
  · intro hne
    match ts, hne with
    | t0 :: rest, _ =>
      set lo := (t0 :: rest).foldl
        (fun e t => if t.startDate < e then t.startDate else e) t0.startDate with hlo
      set hi := (t0 :: rest).foldl
        (fun l t => if l < t.endDate then t.endDate else l) t0.endDate with hhi
      have hloMem : lo ∈ (t0 :: rest).map Task.startDate := by
        rcases foldl_min_mem (t0 :: rest) t0.startDate with h | h
        · rw [hlo, h]; simp
        · exact h
      have hhiMem : hi ∈ (t0 :: rest).map Task.endDate := by
        rcases foldl_max_mem (t0 :: rest) t0.endDate with h | h
        · rw [hhi, h]; simp
        · exact h
      have heq : calculateTimeRange y m (t0 :: rest) = rangeDays (lo - 3) (hi + 3) := rfl
      refine ⟨lo, hi, hloMem, (foldl_min_le (t0 :: rest) t0.startDate).2, hhiMem,
        (foldl_max_le (t0 :: rest) t0.endDate).2, heq, ?_, ?_⟩
      · rw [heq, rangeDays_eq_map]
      · intro x
        rw [heq]
        exact mem_rangeDays _ _ x

/-- Witness for timeRange_padded: the empty collection in January 2024
(month index 0) yields the days 2024-01-01 .. 2024-01-31, and the spec
example task spanning 2024-01-10 .. 2024-01-20 yields exactly 2024-01-07
.. 2024-01-23. -/
theorem timeRange_padded_witness :
    calculateTimeRange 2024 0 [] = rangeDays (dateUTC 2024 0 1) (dateUTC 2024 1 0) ∧
    calculateTimeRange 2024 0
        [⟨1, "t", none, daysFromCivil 2024 1 10, daysFromCivil 2024 1 20, false, 0, 1⟩] =
      rangeDays (daysFromCivil 2024 1 7) (daysFromCivil 2024 1 23) := by
  constructor
  · exact ((timeRange_padded 2024 0 []).1 rfl).1
  · obtain ⟨lo, hi, hloMem, _, hhiMem, _, heq, _, _⟩ :=
      (timeRange_padded 2024 0
        [⟨1, "t", none, daysFromCivil 2024 1 10, daysFromCivil 2024 1 20, false, 0, 1⟩]).2
        (by simp)
    have hlo : lo = daysFromCivil 2024 1 10 := by simpa using hloMem
    have hhi : hi = daysFromCivil 2024 1 20 := by simpa using hhiMem
    rw [heq, hlo, hhi]
    decide

/-! ### getAllTasks -/

/-- Counterexample to claim C6: with a completed task in the first cached
project and an incomplete task in the second, getAllTasks returns the
completed task first, so its result is not sorted by completion status
then start date. -/
theorem getAllTasks_not_completion_sorted :
    ¬ List.Sorted viewLE (getAllTasks
      [⟨1, "P1", none, "#f00", 0, [⟨1, "T1", none, 0, 1, true, 0, 1⟩]⟩,
       ⟨2, "P2", none, "#0f0", 0, [⟨2, "T2", none, 1, 2, false, 0, 2⟩]⟩]) := by
  decide

/-- Claim C6 (amended): getAllTasks returns the concatenation, in cached
project order, of the task list of each project sorted by the order
comparator and decorated with the project name and color; the completion-status /
start-date sort of the claim is applied elsewhere (fetchAllTasks in the
sidebar), not by getAllTasks. -/
theorem getAllTasks_eq_join (projects : List Project) :
    getAllTasks projects =
      (projects.map
        (fun p => (sortTasks p.tasks).map (fun t => TaskView.mk t p.name p.color))).flatten := by
  suffices h : ∀ (ps : List Project) (acc : List TaskView),
      ps.foldl
        (fun allTasks p =>
          if 0 < p.tasks.length then
            allTasks ++ (sortTasks p.tasks).map (fun t => TaskView.mk t p.name p.color)
          else
            allTasks)
        acc =
      acc ++ (ps.map
        (fun p => (sortTasks p.tasks).map (fun t => TaskView.mk t p.name p.color))).flatten by
    simpa [getAllTasks] using h projects []
  intro ps
  induction ps with
  | nil => intro acc; simp
  | cons p ps ih =>
    intro acc
    rw [List.foldl_cons, List.map_cons, List.flatten_cons, ih]
    by_cases hc : 0 < p.tasks.length
    · rw [if_pos hc, List.append_assoc]
    · have hnil : p.tasks = [] := by
        cases h : p.tasks with
        | nil => rfl
        | cons a l => rw [h] at hc; simp at hc
      rw [if_neg hc, hnil]
      simp [sortTasks]

/-! ### deleteProject -/

/-- Counterexample to claim C7: when the DELETE request throws, the catch
branch of deleteProject only sets the error message; the cache keeps the
optimistic removal instead of being restored to the snapshot. -/
theorem deleteProject_throw_keeps_removal :
    (deleteProject ⟨[⟨1, "P1", none, "#f00", 0, []⟩], false, none, none, none⟩ 1 .threw).1.projects
      ≠ [⟨1, "P1", none, "#f00", 0, []⟩] := by
  decide

/-- Claim C7 (amended): deleteProject removes the project optimistically;
a non-2xx response restores the cache to the pre-mutation snapshot and
sets the error; a thrown request sets the error but keeps the removal; a
2xx response keeps the removal and clears selectedProjectId exactly when
it pointed at the deleted project. -/
theorem deleteProject_cases (st : StoreState) (pid : Int) :
    ((deleteProject st pid .notOk).1.projects = st.projects ∧
     (deleteProject st pid .notOk).1.error = some "Failed to delete project" ∧
     (deleteProject st pid .notOk).2 = false) ∧
    ((deleteProject st pid .threw).1.projects = st.projects.filter (fun p => p.id != pid) ∧
     (deleteProject st pid .threw).1.error = some "Error deleting project" ∧
     (deleteProject st pid .threw).2 = false) ∧
    ((deleteProject st pid .ok).1.projects = st.projects.filter (fun p => p.id != pid) ∧
     (deleteProject st pid .ok).2 = true ∧
     (st.selectedProjectId = some pid →
       (deleteProject st pid .ok).1.selectedProjectId = none) ∧
     (st.selectedProjectId ≠ some pid →
       (deleteProject st pid .ok).1.selectedProjectId = st.selectedProjectId)) := by
  refine ⟨⟨rfl, rfl, rfl⟩, ⟨rfl, rfl, rfl⟩, ?_, ?_, ?_, ?_⟩
  · simp only [deleteProject]
    split_ifs <;> rfl
  · simp only [deleteProject]
    split_ifs <;> rfl
  · intro h
    simp only [deleteProject, if_pos h]
  · intro h
    simp only [deleteProject, if_neg h]

/-- Witness for deleteProject_cases: deleting the selected project 1 via a
2xx response clears the selection, and a non-2xx response restores the
single-project cache. -/
theorem deleteProject_cases_witness :
    (deleteProject ⟨[⟨1, "P1", none, "#f00", 0, []⟩], false, none, some 1, none⟩ 1
      .ok).1.selectedProjectId = none ∧
    (deleteProject ⟨[⟨1, "P1", none, "#f00", 0, []⟩], false, none, some 1, none⟩ 1
      .notOk).1.projects = [⟨1, "P1", none, "#f00", 0, []⟩] :=
  ⟨(deleteProject_cases ⟨[⟨1, "P1", none, "#f00", 0, []⟩], false, none, some 1, none⟩ 1).2.2.2.2.1 rfl,
   (deleteProject_cases ⟨[⟨1, "P1", none, "#f00", 0, []⟩], false, none, some 1, none⟩ 1).1.1⟩

/-! ### PUT /api/tasks/[id] -/

/-- Claim C8: the PUT route performs a partial update: a date-only payload
changes only startDate and endDate, rows with a different id are
untouched, and for every field a present value is written while an absent
value leaves the stored value unchanged. -/
theorem putTask_presentFields (t : Task) (b : TaskPatch) :
    (∀ s e, applyPut t ⟨t.id, none, none, some s, some e, none, none, none⟩ =
      { t with startDate := s, endDate := e }) ∧
    (∀ db u, u ∈ db → u.id ≠ t.id → u ∈ putTaskRoute db t.id b) ∧
    ((applyPut t b).id = t.id) ∧
    (b.name = none → (applyPut t b).name = t.name) ∧
    (∀ v, b.name = some v → (applyPut t b).name = v) ∧
    (b.description = none → (applyPut t b).description = t.description) ∧
    (∀ v, b.description = some v → (applyPut t b).description = v) ∧
    (b.startDate = none → (applyPut t b).startDate = t.startDate) ∧
    (∀ v, b.startDate = some v → (applyPut t b).startDate = v) ∧
    (b.endDate = none → (applyPut t b).endDate = t.endDate) ∧
    (∀ v, b.endDate = some v → (applyPut t b).endDate = v) ∧
    (b.completed = none → (applyPut t b).completed = t.completed) ∧
    (∀ v, b.completed = some v → (applyPut t b).completed = v) ∧
    (b.projectId = none → (applyPut t b).projectId = t.projectId) ∧
    (∀ v, b.projectId = some v → (applyPut t b).projectId = v) ∧
    (b.order = none → (applyPut t b).order = t.order) ∧
    (∀ v, b.order = some v → (applyPut t b).order = v) := by
  refine ⟨?_, ?_, rfl, ?_, ?_, ?_, ?_, ?_, ?_, ?_, ?_, ?_, ?_, ?_, ?_, ?_, ?_⟩
  · intro s e
    rfl
  · intro db u hu hne
    have hmem := List.mem_map_of_mem (fun x => if x.id = t.id then applyPut x b else x) hu
    simpa [putTaskRoute, if_neg hne] using hmem
  all_goals first
    | (intro h; simp [applyPut, h])
    | (intro v h; simp [applyPut, h])

/-- Witness for putTask_presentFields: a date-only payload on a concrete task
changes exactly the two dates. -/
theorem putTask_presentFields_witness :
    applyPut ⟨7, "n", none, 1, 2, false, 0, 3⟩
        ⟨7, none, none, some 5, some 9, none, none, none⟩ =
      { (⟨7, "n", none, 1, 2, false, 0, 3⟩ : Task) with startDate := 5, endDate := 9 } :=
  (putTask_presentFields ⟨7, "n", none, 1, 2, false, 0, 3⟩
    ⟨7, none, none, some 5, some 9, none, none, none⟩).1 5 9

/-! ### Reorder lemmas -/

/-- The reorder payload is the enum-free recursion upsFrom 0. -/
theorem tasksWithNewOrder_eq (ids : List Int) :
    tasksWithNewOrder ids = upsFrom 0 ids := by
  suffices h : ∀ (l : List Int) (n : Nat),
      (List.enumFrom n l).map (fun p => (p.2, (p.1 : Int) * 10)) = upsFrom n l by
    exact h ids 0
  intro l
  induction l with
  | nil => intro n; rfl
  | cons i rest ih =>
    intro n
    rw [show List.enumFrom n (i :: rest) = (n, i) :: List.enumFrom (n + 1) rest from rfl,
      List.map_cons, ih (n + 1)]
    rfl

/-- A single row keeps its id through any update list. -/
theorem applyUps_id (ups : List (Int × Int)) : ∀ t : Task, (applyUps ups t).id = t.id := by
  induction ups with
  | nil => intro t; rfl
  | cons u ups ih =>
    intro t
    rw [show applyUps (u :: ups) t
        = applyUps ups (if t.id = u.1 then { t with order := u.2 } else t) from rfl, ih]
    split_ifs <;> rfl

/-- The PATCH handler acts row-wise: folding the updates over the table is
mapping the per-row effect over it. -/
theorem patchTasksRoute_eq_map (ups : List (Int × Int)) : ∀ db : List Task,
    patchTasksRoute db ups = db.map (applyUps ups) := by
  induction ups with
  | nil =>
    intro db
    have h : applyUps ([] : List (Int × Int)) = fun t => t := funext fun t => rfl
    simp [patchTasksRoute, h]
  | cons u ups ih =>
    intro db
    rw [show patchTasksRoute db (u :: ups) = patchTasksRoute (patchOne db u) ups from rfl,
      ih (patchOne db u), patchOne, List.map_map]
    exact List.map_congr_left fun t _ => rfl

/-- A row whose id is not in the id list is unchanged by the reorder
updates. -/
theorem applyUps_upsFrom_not_mem (ids : List Int) : ∀ (n : Nat) (t : Task),
    t.id ∉ ids → applyUps (upsFrom n ids) t = t := by
  induction ids with
  | nil => intro n t _; rfl
  | cons i rest ih =>
    intro n t hnm
    rw [show upsFrom n (i :: rest) = (i, (n : Int) * 10) :: upsFrom (n + 1) rest from rfl,
      show applyUps ((i, (n : Int) * 10) :: upsFrom (n + 1) rest) t
        = applyUps (upsFrom (n + 1) rest)
            (if t.id = i then { t with order := (n : Int) * 10 } else t) from rfl,
      if_neg (fun h => hnm (by rw [h]; exact List.mem_cons_self i rest))]
    exact ih (n + 1) t (fun h => hnm (List.mem_cons_of_mem i h))

/-- A row whose id sits at position j of the id list gets order
(base + j) * 10. -/
theorem applyUps_upsFrom_mem (ids : List Int) : ∀ (n : Nat) (t : Task),
    ids.Nodup → t.id ∈ ids →
    applyUps (upsFrom n ids) t
      = { t with order := ((n : Int) + (ids.indexOf t.id : Int)) * 10 } := by
  induction ids with
  | nil => intro n t _ h; exact absurd h (List.not_mem_nil _)
  | cons i rest ih =>
    intro n t hnd hmem
    obtain ⟨hi, hrest⟩ := List.nodup_cons.mp hnd
    rw [show upsFrom n (i :: rest) = (i, (n : Int) * 10) :: upsFrom (n + 1) rest from rfl,
      show applyUps ((i, (n : Int) * 10) :: upsFrom (n + 1) rest) t
        = applyUps (upsFrom (n + 1) rest)
            (if t.id = i then { t with order := (n : Int) * 10 } else t) from rfl]
    by_cases hti : t.id = i
    · rw [if_pos hti]
      have hnotIn : ({ t with order := (n : Int) * 10 } : Task).id ∉ rest := by
        simpa [hti] using hi
      rw [applyUps_upsFrom_not_mem rest (n + 1) _ hnotIn, hti, List.indexOf_cons_self]
      simp
    · rw [if_neg hti]
      have hmemRest : t.id ∈ rest := by
        rcases List.mem_cons.mp hmem with h | h
        · exact absurd h hti
        · exact h
      rw [ih (n + 1) t hrest hmemRest,
        List.indexOf_cons_ne rest (fun h => hti h.symm)]
      congr 1
      push_cast
      ring

/-- Claim C5: the reorder commit sends the batched payload assigning
order = index * 10 to the id at each index; after the PATCH handler
applies it, every task carries order = (position of its id) * 10; and
re-sorting the patched table with the order comparator lists the ids
exactly in the requested sequence. -/
theorem reorder_roundtrip (db : List Task) (ids : List Int)
    (hnodup : (db.map Task.id).Nodup) (hperm : ids.Perm (db.map Task.id)) :
    (∀ k (hk : k < ids.length),
      (tasksWithNewOrder ids)[k]? = some (ids.get ⟨k, hk⟩, (k : Int) * 10)) ∧
    (∀ t ∈ patchTasksRoute db (tasksWithNewOrder ids),
      t.order = (ids.indexOf t.id : Int) * 10) ∧
    (sortTasks (patchTasksRoute db (tasksWithNewOrder ids))).map Task.id = ids := by
  have hidsNodup : ids.Nodup := hperm.nodup_iff.mpr hnodup
  have hupseq : tasksWithNewOrder ids = upsFrom 0 ids := tasksWithNewOrder_eq ids
  have hmapdb' : patchTasksRoute db (tasksWithNewOrder ids)
      = db.map (applyUps (tasksWithNewOrder ids)) := patchTasksRoute_eq_map _ db
  have hF1 : ∀ t ∈ patchTasksRoute db (tasksWithNewOrder ids),
      t.id ∈ ids ∧ t.order = (ids.indexOf t.id : Int) * 10 := by
    intro t ht
    rw [hmapdb'] at ht
    obtain ⟨u, hu, rfl⟩ := List.mem_map.mp ht
    have humem : u.id ∈ ids := hperm.mem_iff.mpr (List.mem_map_of_mem Task.id hu)
    rw [hupseq, applyUps_upsFrom_mem ids 0 u hidsNodup humem]
    constructor
    · exact humem
    · push_cast
      ring
  have hid' : (patchTasksRoute db (tasksWithNewOrder ids)).map Task.id = db.map Task.id := by
    rw [hmapdb', List.map_map]
    exact List.map_congr_left fun t _ => applyUps_id _ t
  have hperm1 : (sortTasks (patchTasksRoute db (tasksWithNewOrder ids))).Perm
      (patchTasksRoute db (tasksWithNewOrder ids)) :=
    List.perm_insertionSort taskLE _
  have hsorted : List.Sorted taskLE (sortTasks (patchTasksRoute db (tasksWithNewOrder ids))) :=
    List.sorted_insertionSort taskLE _
  set L := sortTasks (patchTasksRoute db (tasksWithNewOrder ids)) with hLdef
  have hpermIds : (L.map Task.id).Perm ids := by
    have h := hperm1.map Task.id
    rw [hid'] at h
    exact h.trans hperm.symm
  have hLNodup : (L.map Task.id).Nodup := hpermIds.nodup_iff.mpr hidsNodup
  have hpairNe : List.Pairwise (fun t u : Task => t.id ≠ u.id) L := by
    have h := hLNodup
    rw [List.Nodup, List.pairwise_map] at h
    exact h
  have hmemL : ∀ t ∈ L, t.id ∈ ids ∧ t.order = (ids.indexOf t.id : Int) * 10 :=
    fun t ht => hF1 t (hperm1.mem_iff.mp ht)
  have hidxSorted : List.Pairwise
      (fun t u : Task => ids.indexOf t.id < ids.indexOf u.id) L := by
    refine List.Pairwise.imp_of_mem ?_ (hsorted.and hpairNe)
    intro a b ha hb hab
    obtain ⟨hle, hne⟩ := hab
    obtain ⟨haMem, haOrd⟩ := hmemL a ha
    obtain ⟨hbMem, hbOrd⟩ := hmemL b hb
    have hidxNe : ids.indexOf a.id ≠ ids.indexOf b.id :=
      fun hEq => hne ((List.indexOf_inj haMem hbMem).mp hEq)
    have hle' : (ids.indexOf a.id : Int) * 10 ≤ (ids.indexOf b.id : Int) * 10 := by
      rw [← haOrd, ← hbOrd]
      exact hle
    omega
  have hmapIdx : List.Pairwise (· < ·) (L.map (fun t => ids.indexOf t.id)) := by
    rw [List.pairwise_map]
    exact hidxSorted
  have hmapRangeEq : ids.map (fun i => ids.indexOf i) = List.range ids.length := by
    refine List.ext_getElem (by simp) ?_
    intro k hk1 hk2
    simp only [List.getElem_map, List.getElem_range]
    exact List.indexOf_getElem hidsNodup k (by simpa using hk1)
  have hpermRange : (L.map (fun t => ids.indexOf t.id)).Perm (List.range ids.length) := by
    have h1 : L.map (fun t => ids.indexOf t.id)
        = (L.map Task.id).map (fun i => ids.indexOf i) := by
      rw [List.map_map]
      rfl
    have h2 := hpermIds.map (fun i => ids.indexOf i)
    rw [h1, ← hmapRangeEq]
    exact h2
  have hrangeEq : L.map (fun t => ids.indexOf t.id) = List.range ids.length := by
    haveI : IsAntisymm Nat (· < ·) := ⟨fun a b h h' => absurd h' (Nat.lt_asymm h)⟩
    exact List.eq_of_perm_of_sorted hpermRange hmapIdx (List.pairwise_lt_range _)
  have hfinal : L.map Task.id = ids := by
    refine List.ext_getElem (by rw [hpermIds.length_eq]) ?_
    intro k hk1 hk2
    have haMem : (L.map Task.id)[k] ∈ ids := hpermIds.mem_iff.mp (List.getElem_mem _)
    have hbMem : ids[k] ∈ ids := List.getElem_mem _
    have hbk : k < (L.map (fun t => ids.indexOf t.id)).length := by simpa using hk1
    have hbr : k < (List.range ids.length).length := by simpa using hk2
    have hstep : (L.map (fun t => ids.indexOf t.id))[k] = k := by
      have h := congrArg (fun l : List Nat => l[k]?) hrangeEq
      simp only [List.getElem?_eq_getElem hbk, List.getElem?_eq_getElem hbr,
        List.getElem_range] at h
      exact Option.some.inj h
    have hidx1 : ids.indexOf ((L.map Task.id)[k]) = k := by
      have hco : ids.indexOf ((L.map Task.id)[k])
          = (L.map (fun t => ids.indexOf t.id))[k] := by
        simp only [List.getElem_map]
      rw [hco, hstep]
    have hidx2 : ids.indexOf (ids[k]) = k := List.indexOf_getElem hidsNodup k hk2
    exact (List.indexOf_inj haMem hbMem).mp (hidx1.trans hidx2.symm)
  refine ⟨?_, fun t ht => (hF1 t ht).2, hfinal⟩
  intro k hk
  rw [tasksWithNewOrder, List.getElem?_map, List.getElem?_enum,
    List.getElem?_eq_getElem hk]
  rfl

/-- Witness for reorder_roundtrip: tasks A, B, C (ids 1, 2, 3) reordered to
the sequence C, A, B: the payload carries C=0, A=10, B=20 and re-sorting
the patched table reproduces the sequence. -/
theorem reorder_roundtrip_witness :
    tasksWithNewOrder [3, 1, 2] = [(3, 0), (1, 10), (2, 20)] ∧
    (sortTasks (patchTasksRoute
      [⟨1, "A", none, 0, 1, false, 0, 1⟩, ⟨2, "B", none, 0, 1, false, 10, 1⟩,
       ⟨3, "C", none, 0, 1, false, 20, 1⟩] (tasksWithNewOrder [3, 1, 2]))).map Task.id
      = [3, 1, 2] :=
  ⟨by decide,
   (reorder_roundtrip
     [⟨1, "A", none, 0, 1, false, 0, 1⟩, ⟨2, "B", none, 0, 1, false, 10, 1⟩,
      ⟨3, "C", none, 0, 1, false, 20, 1⟩] [3, 1, 2] (by decide) (by decide)).2.2⟩

end Planner
